import Mathlib

/-!
Verification of the disc-packer utility (`utils/disc_packer.py`): a shallow
embedding of its data model and operations, followed by theorems checking the
specification's claims about them.

Modelling conventions:
* Python integers are `Int`; `max(0, x)` is `max 0 x`.
* Python floats that feed the placement logic do not exist (the placement
  decision is all-integer in the source); the one float that reaches
  `resolve_capacity` (the `--capacity` value) is modelled as an exact `ℚ`,
  with `int(...)` as truncation toward zero.
* Fallible code (a failing `assert`, a raised `KeyError`/`ValueError`) is
  modelled with `Option`/`Except`: `none`/`.error` means the Python call
  raises instead of returning.
* The filesystem seen by the scanner is a finite tree of named entries; a
  file's `stat` result is `Option Int` (`none` = the `OSError` branch).
* The materialiser is modelled as the trace of filesystem mutations it
  performs, in order, paired with the error it raises (if any).
-/

/-- Embeds `FileEntry` (dataclass): a scanned file's path and size in bytes. -/
structure FileEntry where
  path : String
  size : Int
deriving DecidableEq, Repr

/-- Embeds the `Bin` dataclass: index, capacity, reserve, running `used`
counter and the placed files, in placement order. -/
structure Bin where
  index : Int
  capacity : Int
  reserve_bytes : Int
  used : Int
  files : List FileEntry
deriving DecidableEq, Repr

/-- Embeds `Bin.effective_capacity`: `max(0, capacity - reserve_bytes)`. -/
def Bin.effective_capacity (b : Bin) : Int :=
  max 0 (b.capacity - b.reserve_bytes)

/-- Embeds `Bin.remaining`: `effective_capacity - used`. -/
def Bin.remaining (b : Bin) : Int :=
  b.effective_capacity - b.used

/-- Embeds `Bin.utilisation`: `used / effective_capacity`, `0` when the
effective capacity is `0` (informational only, never used in placement). -/
def Bin.utilisation (b : Bin) : ℚ :=
  if b.effective_capacity = 0 then 0 else (b.used : ℚ) / (b.effective_capacity : ℚ)

/-- Embeds `Bin.try_add`: if `size + per_file_overhead ≤ remaining`, append the
file, add to `used` and answer `True`; else answer `False` unchanged. The
mutate-and-return-bool Python method becomes `Option Bin` (`some` = `True`
with the updated bin, `none` = `False`). -/
def Bin.try_add (b : Bin) (fe : FileEntry) (per_file_overhead : Int) : Option Bin :=
  let needed := fe.size + per_file_overhead
  if needed ≤ b.remaining then
    some { b with files := b.files ++ [fe], used := b.used + needed }
  else
    none

/-- Insert a file into a list already ordered by size descending, in front of
the first element whose size is `≤` its own. Used to embed Python's stable
descending sort (see `sortBySizeDesc`). -/
def insertBySizeDesc (fe : FileEntry) : List FileEntry → List FileEntry
  | [] => [fe]
  | g :: rest => if g.size ≤ fe.size then fe :: g :: rest else g :: insertBySizeDesc fe rest

/-- Embeds `sorted(files, key=lambda f: f.size, reverse=True)`. Python's sort
is stable, and any stable size-descending sort is extensionally unique, so
this stable insertion sort computes the same list: sizes descending, records
of equal size in input order (each element is inserted ahead of the
equal-sized elements that came later in the input). -/
def sortBySizeDesc : List FileEntry → List FileEntry
  | [] => []
  | fe :: rest => insertBySizeDesc fe (sortBySizeDesc rest)

/-- Embeds the inner `for b in bins: if b.try_add(...)` loop of
`first_fit_decreasing`: offer the file to each existing bin in creation
order; `some bins2` is the updated bin list after the first success, `none`
means no bin accepted it. -/
def placeFirstFit (fe : FileEntry) (per_file_overhead : Int) : List Bin → Option (List Bin)
  | [] => none
  | b :: bs =>
    match b.try_add fe per_file_overhead with
    | some b2 => some (b2 :: bs)
    | none =>
      match placeFirstFit fe per_file_overhead bs with
      | some bs2 => some (b :: bs2)
      | none => none

/-- Embeds the main `for fe in files_sorted` loop of `first_fit_decreasing`,
with `bins` and `skipped` as accumulators. A file above the threshold goes to
`skipped`; otherwise it is offered to the existing bins; otherwise a fresh
bin `Bin(index=len(bins)+1, capacity, reserve_bytes)` is opened and
`assert new_bin.try_add(...)` placed into it — `none` is that assertion
failing (the Python `AssertionError`). -/
def ffdLoop (capacity reserve_bytes per_file_overhead too_big_thresh : Int) :
    List FileEntry → List Bin → List FileEntry → Option (List Bin × List FileEntry)
  | [], bins, skipped => some (bins, skipped)
  | fe :: rest, bins, skipped =>
    if too_big_thresh < fe.size then
      ffdLoop capacity reserve_bytes per_file_overhead too_big_thresh rest bins (skipped ++ [fe])
    else
      match placeFirstFit fe per_file_overhead bins with
      | some bins2 =>
        ffdLoop capacity reserve_bytes per_file_overhead too_big_thresh rest bins2 skipped
      | none =>
        match Bin.try_add ⟨(bins.length : Int) + 1, capacity, reserve_bytes, 0, []⟩ fe per_file_overhead with
        | some nb =>
          ffdLoop capacity reserve_bytes per_file_overhead too_big_thresh rest (bins ++ [nb]) skipped
        | none => none

/-- Embeds `first_fit_decreasing(files, capacity, reserve_bytes,
per_file_overhead)`: sort descending, compute `effective_capacity` and
`too_big_thresh`, run the placement loop. `none` models the run raising
`AssertionError` at the must-fit assertion. -/
def first_fit_decreasing (files : List FileEntry) (capacity reserve_bytes per_file_overhead : Int) :
    Option (List Bin × List FileEntry) :=
  let files_sorted := sortBySizeDesc files
  let effective_capacity := max 0 (capacity - reserve_bytes)
  let too_big_thresh := max 0 (effective_capacity - per_file_overhead)
  ffdLoop capacity reserve_bytes per_file_overhead too_big_thresh files_sorted [] []

/-- All files placed in a list of bins, in bin order then in-bin order. -/
def binsFiles (bins : List Bin) : List FileEntry :=
  (bins.map Bin.files).flatten

/-- Invariant of every bin the packer creates: its capacity and reserve are
the run's configuration, `used` is the exact sum of `size + per_file_overhead`
over its files, and `used` never exceeds the effective capacity. -/
def BinInv (capacity reserve_bytes per_file_overhead : Int) (b : Bin) : Prop :=
  b.capacity = capacity ∧ b.reserve_bytes = reserve_bytes ∧
  b.used = (b.files.map (fun fe => fe.size + per_file_overhead)).sum ∧
  b.used ≤ b.effective_capacity

/-- Models `name.startswith('.')`, the source's notion of a hidden name. -/
def hiddenName (s : String) : Bool :=
  match s.data with
  | [] => false
  | c :: _ => c = '.'

/-- Models `str.lower` on one character (ASCII range, the case the tool's
inputs exercise). -/
def lowerChar (c : Char) : Char :=
  if 'A' ≤ c ∧ c ≤ 'Z' then Char.ofNat (c.toNat + 32) else c

/-- Models `str.lower`. -/
def lowerStr (s : String) : String :=
  ⟨s.data.map lowerChar⟩

/-- Models `str.lstrip('.')`: drop every leading dot. -/
def stripDots (s : String) : String :=
  ⟨s.data.dropWhile (fun ch => ch = '.')⟩

/-- Models `e.lower().lstrip('.')`, the normalisation `scan_files` applies
both to each allow-list entry and to a file's suffix before the membership
test. -/
def normExt (e : String) : String :=
  stripDots (lowerStr e)

/-- Index of the last `'.'` in a character list, if any (Python's
`str.rfind('.')` restricted to the found case). -/
def rfindDotIdx : List Char → Option Nat
  | [] => none
  | ch :: rest =>
    match rfindDotIdx rest with
    | some i => some (i + 1)
    | none => if ch = '.' then some 0 else none

/-- Models `pathlib.PurePath.suffix` on a base name: `name[i:]` for the last
dot index `i` when `0 < i < len(name) - 1`, else the empty string (so a name
with no dot, a leading-dot name, and a trailing-dot name all have suffix
`""`). The bound `i < len - 1` is written `i + 1 < len`. -/
def pySuffix (name : String) : String :=
  match rfindDotIdx name.data with
  | some i => if 0 < i ∧ i + 1 < name.data.length then ⟨name.data.drop i⟩ else ""
  | none => ""

/-- Scan a glob character class for its closing `']'`: answers the content
before it and the remainder after it, `none` when `']'` never comes. -/
def classScan : List Char → Option (List Char × List Char)
  | [] => none
  | ']' :: rest => some ([], rest)
  | ch :: rest =>
    match classScan rest with
    | some pr => some (ch :: pr.1, pr.2)
    | none => none

/-- Models how `fnmatch.translate` delimits a `[...]` class: a leading `'!'`
and a `']'` in first content position are literal, then the first `']'`
closes the class; an unterminated class makes the `'['` a literal. -/
def classSplit (cs : List Char) : Option (List Char × List Char) :=
  match cs with
  | '!' :: ']' :: rest => (classScan rest).map (fun pr => ('!' :: ']' :: pr.1, pr.2))
  | '!' :: rest => (classScan rest).map (fun pr => ('!' :: pr.1, pr.2))
  | ']' :: rest => (classScan rest).map (fun pr => (']' :: pr.1, pr.2))
  | rest => classScan rest

/-- Match one character against the items of a glob class: `x-y` ranges,
otherwise literal characters (a trailing or leading `'-'` is literal). -/
def rangesMatch : List Char → Char → Bool
  | x :: '-' :: y :: rest, c => (decide (x ≤ c ∧ c ≤ y)) || rangesMatch rest c
  | x :: rest, c => (decide (x = c)) || rangesMatch rest c
  | [], _ => false

/-- Match one character against a whole glob class, honouring the leading
`'!'` negation. -/
def classMatch (content : List Char) (c : Char) : Bool :=
  match content with
  | '!' :: rest => !(rangesMatch rest c)
  | _ => rangesMatch content c

theorem classScan_length {cs content rest : List Char}
    (h : classScan cs = some (content, rest)) : rest.length < cs.length := by
  induction cs generalizing content rest with
  | nil => simp [classScan] at h
  | cons ch cs ih =>
    by_cases hch : ch = ']'
    · subst hch
      simp only [classScan] at h
      cases h
      simp
    · rw [show classScan (ch :: cs) = (match classScan cs with
          | some pr => some (ch :: pr.1, pr.2)
          | none => none) from by
            cases cs <;> simp_all [classScan]] at h
      rcases hs : classScan cs with _ | pr
      · rw [hs] at h; cases h
      · rw [hs] at h
        cases h
        exact Nat.lt_succ_of_lt (ih hs)

theorem classSplit_length {cs content rest : List Char}
    (h : classSplit cs = some (content, rest)) : rest.length < cs.length := by
  unfold classSplit at h
  split at h
  all_goals
    first
    | (rcases hs : classScan _ with _ | pr <;> rw [hs] at h <;> cases h
       have := classScan_length hs
       simp_all
       omega)
    | exact classScan_length h

/-- Models the translated-pattern matching of `fnmatch`: `*` matches any run,
`?` any single character, `[...]` a character class, anything else itself. -/
def globMatch : List Char → List Char → Bool
  | [], [] => true
  | [], _ :: _ => false
  | '*' :: ps, s =>
    globMatch ps s ||
      (match s with
       | [] => false
       | _ :: s2 => globMatch ('*' :: ps) s2)
  | '?' :: _, [] => false
  | '?' :: ps, _ :: s2 => globMatch ps s2
  | '[' :: ps, s =>
    match hc : classSplit ps with
    | some pr =>
      (match s with
       | [] => false
       | ch :: s2 => classMatch pr.1 ch && globMatch pr.2 s2)
    | none =>
      (match s with
       | [] => false
       | ch :: s2 => (decide (ch = '[')) && globMatch ps s2)
  | p :: ps, [] => false
  | p :: ps, ch :: s2 => (decide (p = ch)) && globMatch ps s2
termination_by p s => p.length + s.length
decreasing_by
  all_goals simp_all
  all_goals try omega
  · have := classSplit_length hc; omega

/-- Models `fnmatch.fnmatch(name, pat)` (POSIX `normcase` is the identity). -/
def fnmatchName (name pat : String) : Bool :=
  globMatch pat.data name.data

/-- Models `exclude_globs and any(fnmatch.fnmatch(name, pat) for pat in
exclude_globs)`: Python truthiness makes `None` and the empty list both skip
the check. -/
def excludeHit (exclude_globs : Option (List String)) (name : String) : Bool :=
  match exclude_globs with
  | some pats => !pats.isEmpty && pats.any (fun pat => fnmatchName name pat)
  | none => false

/-- Models the include-by-extension test of `scan_files`:
`include_set is not None and p.suffix.lower().lstrip('.') not in include_set`. -/
def includeMiss (include_set : Option (List String)) (name : String) : Bool :=
  match include_set with
  | some s => decide (normExt (pySuffix name) ∉ s)
  | none => false

/-- Embeds the body of the `for name in filenames` loop of `scan_files` for
one file: skip it when hidden (and hiding is on), when an exclude glob
matches, when the extension misses the allow-list, or when `stat` fails
(`size = none`, the `OSError` branch); otherwise produce the record
`FileEntry(path=dirpath / name, size)`. -/
def keepFile (ignore_hidden : Bool) (include_set exclude_globs : Option (List String))
    (dirpath name : String) (size : Option Int) : Option FileEntry :=
  if ignore_hidden && hiddenName name then none
  else if excludeHit exclude_globs name then none
  else if includeMiss include_set name then none
  else
    match size with
    | some sz => some ⟨dirpath ++ "/" ++ name, sz⟩
    | none => none

/-- A directory tree as the scanner sees it: named files (with their `stat`
size, `none` when unreadable) and named subdirectories. -/
inductive FsEntry where
  | file (name : String) (size : Option Int)
  | dir (name : String) (children : List FsEntry)
deriving Repr

/-- Records produced from the files directly inside one directory, in listing
order (one `os.walk` tuple's `filenames` loop). -/
def dirFiles (ignore_hidden : Bool) (include_set exclude_globs : Option (List String))
    (dirpath : String) (entries : List FsEntry) : List FileEntry :=
  entries.filterMap (fun e =>
    match e with
    | .file name sz => keepFile ignore_hidden include_set exclude_globs dirpath name sz
    | .dir _ _ => none)

/-- Embeds the recursive part of the `os.walk` traversal in `scan_files`
(top-down): for each subdirectory in listing order — pruned when hiding is on
and its name is hidden — emit its own files, then descend; then continue with
the following siblings. -/
def walkList (ignore_hidden : Bool) (include_set exclude_globs : Option (List String))
    (dirpath : String) : List FsEntry → List FileEntry
  | [] => []
  | .file _ _ :: rest => walkList ignore_hidden include_set exclude_globs dirpath rest
  | .dir name cs :: rest =>
    (if ignore_hidden && hiddenName name then []
     else
       dirFiles ignore_hidden include_set exclude_globs (dirpath ++ "/" ++ name) cs ++
         walkList ignore_hidden include_set exclude_globs (dirpath ++ "/" ++ name) cs) ++
      walkList ignore_hidden include_set exclude_globs dirpath rest
termination_by es => sizeOf es

/-- Embeds `scan_files(root, include_ext, exclude_globs, follow_symlinks,
ignore_hidden)` over a modelled directory tree `entries` (the listing of
`root`). `include_set` is built exactly as in the source: `None` when
`include_ext` is falsy (absent or empty), else the normalised entries. The
tree model holds no directory symlinks, so `follow_symlinks` cannot alter the
traversal. -/
def scan_files (root : String) (entries : List FsEntry)
    (include_ext exclude_globs : Option (List String))
    (_follow_symlinks ignore_hidden : Bool) : List FileEntry :=
  let include_set : Option (List String) :=
    match include_ext with
    | some exts => if exts.isEmpty then none else some (exts.map normExt)
    | none => none
  dirFiles ignore_hidden include_set exclude_globs root entries ++
    walkList ignore_hidden include_set exclude_globs root entries

/-- Embeds the scanner call site in `main`: the flag it passes for
`ignore_hidden` is `args.no_hidden or True`. -/
def main_scan_ignore_hidden (no_hidden : Bool) : Bool :=
  no_hidden || true

/-- Models `pathlib.PurePath.name`: the part of the path after the last
`'/'` (the whole path when it has none). -/
def baseName (p : String) : String :=
  ⟨(p.data.reverse.takeWhile (fun ch => ch ≠ '/')).reverse⟩

/-- Left-pad a digit string with zeros to the given width. -/
def padZeros (width : Nat) (s : String) : String :=
  ⟨List.replicate (width - s.data.length) '0' ++ s.data⟩

/-- Models the `:03d` formatting of the bin index in the `disc_NNN` directory
name: zero-pad to a total width of 3, the sign counting toward the width. -/
def int03 (n : Int) : String :=
  if n < 0 then "-" ++ padZeros 2 (Nat.repr n.natAbs) else padZeros 3 (Nat.repr n.natAbs)

/-- One filesystem mutation the materialiser performs, in the order the
source performs them: `staging_dir.mkdir(parents=True, exist_ok=True)` /
`out_dir.mkdir(...)`, `dest.symlink_to(src)`, `os.link(src, dest)`,
`shutil.copy2(src, dest)`. The `FileExistsError` retry only replaces an
existing destination; the trace keeps the one resulting creation. -/
inductive FsOp where
  | mkdirParents (path : String)
  | makeSymlink (target dest : String)
  | makeHardlink (target dest : String)
  | copyFile (src dest : String)
deriving DecidableEq, Repr

/-- Embeds the `for fe in b.files` loop of `materialise_plan` for one bin's
directory: the mutation trace it performs, and the `ValueError` raised on the
first file when the link type is not one of the three recognised strategies
(`none` = the loop finishes without raising). -/
def matFiles (link_type out_dir : String) : List FileEntry → List FsOp × Option String
  | [] => ([], none)
  | fe :: rest =>
    let dest := out_dir ++ "/" ++ baseName fe.path
    if link_type = "symlink" then
      let pr := matFiles link_type out_dir rest
      (FsOp.makeSymlink fe.path dest :: pr.1, pr.2)
    else if link_type = "hardlink" then
      let pr := matFiles link_type out_dir rest
      (FsOp.makeHardlink fe.path dest :: pr.1, pr.2)
    else if link_type = "copy" then
      let pr := matFiles link_type out_dir rest
      (FsOp.copyFile fe.path dest :: pr.1, pr.2)
    else
      ([], some ("Unknown link type: " ++ link_type))

/-- Embeds the `for b in bins` loop of `materialise_plan`: create each bin's
`disc_NNN` directory, then place its files; a raised error stops the run. -/
def matBins (link_type staging_dir : String) : List Bin → List FsOp × Option String
  | [] => ([], none)
  | b :: rest =>
    let out_dir := staging_dir ++ "/disc_" ++ int03 b.index
    let pr := matFiles link_type out_dir b.files
    match pr.2 with
    | some e => (FsOp.mkdirParents out_dir :: pr.1, some e)
    | none =>
      let pr2 := matBins link_type staging_dir rest
      (FsOp.mkdirParents out_dir :: pr.1 ++ pr2.1, pr2.2)

/-- Embeds `materialise_plan(bins, staging_dir, link_type)`: first
`staging_dir.mkdir(parents=True, exist_ok=True)`, then the per-bin loop. The
result is the ordered trace of mutations performed and the error raised, if
any. -/
def materialise_plan (bins : List Bin) (staging_dir link_type : String) :
    List FsOp × Option String :=
  let pr := matBins link_type staging_dir bins
  (FsOp.mkdirParents staging_dir :: pr.1, pr.2)

/-- Embeds the `MEDIA_PROFILES` table (nominal capacities in bytes). -/
def MEDIA_PROFILES : List (String × Int) :=
  [("dvd5", 4700372992),
   ("dvd9", 8540000000),
   ("cd700", 700 * 1000000),
   ("bdr25", 25 * 1000000000),
   ("bdr50", 50 * 1000000000)]

/-- Embeds the `UNIT_FACTORS` table (byte multipliers). -/
def UNIT_FACTORS : List (String × Int) :=
  [("B", 1),
   ("KB", 1000),
   ("KiB", 1024),
   ("MB", 1000000),
   ("MiB", 1024 ^ 2),
   ("GB", 1000000000),
   ("GiB", 1024 ^ 3)]

/-- Python truthiness of an optional string: `None` and `""` are falsy. -/
def truthyStr : Option String → Bool
  | none => false
  | some s => decide (s ≠ "")

/-- Models Python `int(...)` on an exact rational: truncation toward zero. -/
def ratTrunc (q : ℚ) : Int :=
  if q < 0 then ⌈q⌉ else ⌊q⌋

/-- Embeds `resolve_capacity(args)` over the fields it reads: `args.profile`
(`if args.profile:` — truthiness), `args.capacity` (`is not None`) and
`args.unit`. A failed table lookup is the Python `KeyError`, modelled as
`.error`; with neither profile nor value the default is
`MEDIA_PROFILES["dvd5"]`. -/
def resolve_capacity (profile : Option String) (capacity : Option ℚ) (unit : String) :
    Except String Int :=
  if truthyStr profile then
    match MEDIA_PROFILES.lookup (profile.getD "") with
    | some cap => Except.ok cap
    | none => Except.error ("UnknownProfile: " ++ profile.getD "")
  else
    match capacity with
    | some value =>
      match UNIT_FACTORS.lookup unit with
      | some factor => Except.ok (ratTrunc (value * (factor : ℚ)))
      | none => Except.error ("UnknownUnit: " ++ unit)
    | none =>
      match MEDIA_PROFILES.lookup "dvd5" with
      | some cap => Except.ok cap
      | none => Except.error "UnknownProfile: dvd5"

theorem binsFiles_nil : binsFiles [] = [] := rfl

theorem binsFiles_cons (b : Bin) (bs : List Bin) :
    binsFiles (b :: bs) = b.files ++ binsFiles bs := rfl

theorem binsFiles_append (l1 l2 : List Bin) :
    binsFiles (l1 ++ l2) = binsFiles l1 ++ binsFiles l2 := by
  simp [binsFiles]

theorem try_add_eq_some {b : Bin} {fe : FileEntry} {ov : Int} {b2 : Bin}
    (h : b.try_add fe ov = some b2) :
    b2.index = b.index ∧ b2.capacity = b.capacity ∧ b2.reserve_bytes = b.reserve_bytes ∧
      b2.used = b.used + (fe.size + ov) ∧ b2.files = b.files ++ [fe] ∧
      fe.size + ov ≤ b.effective_capacity - b.used := by
  simp only [Bin.try_add, Bin.remaining] at h
  split at h
  · cases h
    exact ⟨rfl, rfl, rfl, rfl, rfl, by assumption⟩
  · cases h

theorem try_add_binInv {c r ov : Int} {b : Bin} {fe : FileEntry} {b2 : Bin}
    (h : b.try_add fe ov = some b2) (hb : BinInv c r ov b) : BinInv c r ov b2 := by
  obtain ⟨-, hcap, hres, hused, hfiles, hle⟩ := try_add_eq_some h
  obtain ⟨hbc, hbr, hbs, hble⟩ := hb
  have heff : b2.effective_capacity = b.effective_capacity := by
    simp [Bin.effective_capacity, hcap, hres]
  refine ⟨hcap.trans hbc, hres.trans hbr, ?_, ?_⟩
  · rw [hused, hfiles, hbs]
    simp
  · rw [hused, heff]
    omega

theorem placeFirstFit_count {fe : FileEntry} {ov : Int} {bins bins2 : List Bin}
    (h : placeFirstFit fe ov bins = some bins2) (g : FileEntry) :
    (binsFiles bins2).count g = (binsFiles bins).count g + List.count g [fe] := by
  induction bins generalizing bins2 with
  | nil => simp [placeFirstFit] at h
  | cons b bs ih =>
    simp only [placeFirstFit] at h
    rcases ht : b.try_add fe ov with _ | b2 <;> rw [ht] at h
    · rcases hp : placeFirstFit fe ov bs with _ | bs2 <;> rw [hp] at h
      · cases h
      · cases h
        have := ih hp
        simp only [binsFiles_cons, List.count_append] at *
        omega
    · cases h
      obtain ⟨-, -, -, -, hfiles, -⟩ := try_add_eq_some ht
      simp only [binsFiles_cons, hfiles, List.count_append] at *
      omega

theorem placeFirstFit_binInv {c r ov : Int} {fe : FileEntry} {bins bins2 : List Bin}
    (h : placeFirstFit fe ov bins = some bins2)
    (hb : ∀ b ∈ bins, BinInv c r ov b) : ∀ b ∈ bins2, BinInv c r ov b := by
  induction bins generalizing bins2 with
  | nil => simp [placeFirstFit] at h
  | cons b bs ih =>
    simp only [placeFirstFit] at h
    rcases ht : b.try_add fe ov with _ | b2 <;> rw [ht] at h
    · rcases hp : placeFirstFit fe ov bs with _ | bs2 <;> rw [hp] at h
      · cases h
      · cases h
        intro x hx
        rcases List.mem_cons.mp hx with hx | hx
        · exact hx ▸ hb b (by simp)
        · exact ih hp (fun y hy => hb y (by simp [hy])) x hx
    · cases h
      intro x hx
      rcases List.mem_cons.mp hx with hx | hx
      · exact hx ▸ try_add_binInv ht (hb b (by simp))
      · exact hb x (by simp [hx])

theorem ffdLoop_count {c r ov th : Int} {rest : List FileEntry} {bins : List Bin}
    {skipped : List FileEntry} {bins2 : List Bin} {skipped2 : List FileEntry}
    (h : ffdLoop c r ov th rest bins skipped = some (bins2, skipped2)) (g : FileEntry) :
    (binsFiles bins2).count g + skipped2.count g =
      (binsFiles bins).count g + skipped.count g + rest.count g := by
  induction rest generalizing bins skipped with
  | nil =>
    simp only [ffdLoop] at h
    cases h
    simp
  | cons fe rest ih =>
    simp only [ffdLoop] at h
    split at h
    · have := ih h
      simp only [List.count_append, List.count_cons, List.count_nil] at *
      omega
    · rcases hp : placeFirstFit fe ov bins with _ | bins3 <;> rw [hp] at h
      · rcases ht : Bin.try_add ⟨(bins.length : Int) + 1, c, r, 0, []⟩ fe ov with _ | nb <;>
          rw [ht] at h
        · cases h
        · have := ih h
          obtain ⟨-, -, -, -, hfiles, -⟩ := try_add_eq_some ht
          simp only [binsFiles_append, binsFiles_cons, binsFiles_nil, hfiles,
            List.count_append, List.count_cons] at *
          simp at *
          omega
      · have := ih h
        have hpc := placeFirstFit_count hp g
        simp only [List.count_cons, List.count_append] at *
        simp at *
        omega

theorem ffdLoop_binInv {c r ov th : Int} {rest : List FileEntry} {bins : List Bin}
    {skipped : List FileEntry} {bins2 : List Bin} {skipped2 : List FileEntry}
    (h : ffdLoop c r ov th rest bins skipped = some (bins2, skipped2))
    (hb : ∀ b ∈ bins, BinInv c r ov b) : ∀ b ∈ bins2, BinInv c r ov b := by
  induction rest generalizing bins skipped with
  | nil =>
    simp only [ffdLoop] at h
    cases h
    exact hb
  | cons fe rest ih =>
    simp only [ffdLoop] at h
    split at h
    · exact ih h hb
    · rcases hp : placeFirstFit fe ov bins with _ | bins3 <;> rw [hp] at h
      · rcases ht : Bin.try_add ⟨(bins.length : Int) + 1, c, r, 0, []⟩ fe ov with _ | nb <;>
          rw [ht] at h
        · cases h
        · refine ih h ?_
          intro x hx
          rcases List.mem_append.mp hx with hx | hx
          · exact hb x hx
          · have hnb : BinInv c r ov nb := by
              refine try_add_binInv ht ?_
              refine ⟨rfl, rfl, by simp, ?_⟩
              simp [Bin.effective_capacity]
            simpa using (List.mem_singleton.mp hx ▸ hnb)
      · exact ih h (placeFirstFit_binInv hp hb)

theorem ffdLoop_skipped {c r ov th : Int} {rest : List FileEntry} {bins : List Bin}
    {skipped : List FileEntry} {bins2 : List Bin} {skipped2 : List FileEntry}
    (h : ffdLoop c r ov th rest bins skipped = some (bins2, skipped2)) :
    skipped2 = skipped ++ rest.filter (fun fe => decide (th < fe.size)) := by
  induction rest generalizing bins skipped with
  | nil =>
    simp only [ffdLoop] at h
    cases h
    simp
  | cons fe rest ih =>
    simp only [ffdLoop] at h
    split at h
    · rename_i hlt
      rw [ih h]
      simp [List.filter_cons, hlt]
    · rename_i hlt
      have hfc : List.filter (fun fe => decide (th < fe.size)) (fe :: rest) =
          List.filter (fun fe => decide (th < fe.size)) rest := by
        simp [List.filter_cons, hlt]
      rw [hfc]
      rcases hp : placeFirstFit fe ov bins with _ | bins3 <;> rw [hp] at h
      · rcases ht : Bin.try_add ⟨(bins.length : Int) + 1, c, r, 0, []⟩ fe ov with _ | nb <;>
          rw [ht] at h
        · cases h
        · exact ih h
      · exact ih h

theorem insertBySizeDesc_perm (fe : FileEntry) (l : List FileEntry) :
    List.Perm (insertBySizeDesc fe l) (fe :: l) := by
  induction l with
  | nil => simp [insertBySizeDesc]
  | cons g rest ih =>
    simp only [insertBySizeDesc]
    split
    · exact List.Perm.refl _
    · exact (ih.cons g).trans (List.Perm.swap fe g rest)

theorem sortBySizeDesc_perm (files : List FileEntry) :
    List.Perm (sortBySizeDesc files) files := by
  induction files with
  | nil => simp [sortBySizeDesc]
  | cons fe rest ih =>
    exact (insertBySizeDesc_perm fe (sortBySizeDesc rest)).trans (ih.cons fe)

theorem filter_insertBySizeDesc (s : Int) (fe : FileEntry) (l : List FileEntry) :
    (insertBySizeDesc fe l).filter (fun g => decide (g.size = s)) =
      if fe.size = s then fe :: l.filter (fun g => decide (g.size = s))
      else l.filter (fun g => decide (g.size = s)) := by
  induction l with
  | nil =>
    simp only [insertBySizeDesc, List.filter]
    split <;> simp_all
  | cons g rest ih =>
    simp only [insertBySizeDesc]
    split
    · rename_i hle
      by_cases hfe : fe.size = s
      · simp [List.filter_cons, hfe]
      · simp [List.filter_cons, hfe]
    · rename_i hgt
      by_cases hfe : fe.size = s
      · have hgs : ¬ g.size = s := by omega
        simp [List.filter_cons, hgs, ih, hfe]
      · simp [List.filter_cons, ih, hfe]

theorem filter_sortBySizeDesc (s : Int) (files : List FileEntry) :
    (sortBySizeDesc files).filter (fun g => decide (g.size = s)) =
      files.filter (fun g => decide (g.size = s)) := by
  induction files with
  | nil => rfl
  | cons fe rest ih =>
    simp only [sortBySizeDesc, filter_insertBySizeDesc, List.filter_cons]
    split <;> simp_all

/-- C1. Partition property: for every input list of file records and every
non-negative capacity, reserve and per-file overhead, whenever the packer
returns a result, the files of all bins together with the skipped list are a
permutation of the input — equivalently, each input record (counted with
multiplicity) lands in exactly one of {exactly one bin, the skipped set},
never both, never neither. -/
theorem ffd_partition (files : List FileEntry) (capacity reserve_bytes per_file_overhead : Int)
    (bins : List Bin) (skipped : List FileEntry)
    (hc : 0 ≤ capacity) (hr : 0 ≤ reserve_bytes) (hov : 0 ≤ per_file_overhead)
    (h : first_fit_decreasing files capacity reserve_bytes per_file_overhead =
      some (bins, skipped)) :
    List.Perm (binsFiles bins ++ skipped) files ∧
      ∀ fe : FileEntry,
        (bins.map (fun b => b.files.count fe)).sum + skipped.count fe = files.count fe := by
  simp only [first_fit_decreasing] at h
  have hcount : ∀ g : FileEntry,
      (binsFiles bins).count g + skipped.count g = files.count g := by
    intro g
    have h1 := ffdLoop_count h g
    have h2 := (sortBySizeDesc_perm files).count_eq g
    simpa [binsFiles_nil, h2] using h1
  constructor
  · refine List.perm_iff_count.mpr ?_
    intro g
    simp only [List.count_append]
    exact hcount g
  · intro fe
    have hflat : (binsFiles bins).count fe = (bins.map (fun b => b.files.count fe)).sum := by
      simp [binsFiles, List.count_flatten, List.map_map, Function.comp_def]
    rw [← hflat]
    exact hcount fe

/-- C1 witness: the theorem applied at a concrete run (two files, capacity 4)
whose result places both files in one bin and skips nothing. -/
theorem ffd_partition_witness :
    List.Perm (binsFiles [⟨1, 4, 0, 4, [⟨"a", 3⟩, ⟨"b", 1⟩]⟩] ++ []) [⟨"a", 3⟩, ⟨"b", 1⟩] :=
  (ffd_partition [⟨"a", 3⟩, ⟨"b", 1⟩] 4 0 0 [⟨1, 4, 0, 4, [⟨"a", 3⟩, ⟨"b", 1⟩]⟩] []
    (by decide) (by decide) (by decide) (by decide)).1

/-- C2. Capacity invariant: for every bin the packer returns, `used` never
exceeds the effective capacity `max 0 (capacity - reserve)`, and `used` is
the exact sum of `size + per_file_overhead` over the bin's files. -/
theorem ffd_capacity_invariant (files : List FileEntry)
    (capacity reserve_bytes per_file_overhead : Int)
    (bins : List Bin) (skipped : List FileEntry)
    (hc : 0 ≤ capacity) (hr : 0 ≤ reserve_bytes) (hov : 0 ≤ per_file_overhead)
    (h : first_fit_decreasing files capacity reserve_bytes per_file_overhead =
      some (bins, skipped)) :
    ∀ b ∈ bins,
      b.used ≤ b.effective_capacity ∧
        b.effective_capacity = max 0 (capacity - reserve_bytes) ∧
        b.used = (b.files.map (fun fe => fe.size + per_file_overhead)).sum := by
  simp only [first_fit_decreasing] at h
  have hinv := ffdLoop_binInv h (by simp)
  intro b hb
  obtain ⟨hcap, hres, hsum, hle⟩ := hinv b hb
  exact ⟨hle, by simp [Bin.effective_capacity, hcap, hres], hsum⟩

/-- C2 witness: the theorem applied at a concrete run and at the single bin
it produces, which has `used = 4 = (3 + 0) + (1 + 0) ≤ max 0 (4 - 0)`. -/
theorem ffd_capacity_invariant_witness :
    (⟨1, 4, 0, 4, [⟨"a", 3⟩, ⟨"b", 1⟩]⟩ : Bin).used ≤
        (⟨1, 4, 0, 4, [⟨"a", 3⟩, ⟨"b", 1⟩]⟩ : Bin).effective_capacity ∧
      (⟨1, 4, 0, 4, [⟨"a", 3⟩, ⟨"b", 1⟩]⟩ : Bin).effective_capacity = max 0 ((4 : Int) - 0) ∧
      (⟨1, 4, 0, 4, [⟨"a", 3⟩, ⟨"b", 1⟩]⟩ : Bin).used =
        ((⟨1, 4, 0, 4, [⟨"a", 3⟩, ⟨"b", 1⟩]⟩ : Bin).files.map (fun fe => fe.size + 0)).sum :=
  ffd_capacity_invariant [⟨"a", 3⟩, ⟨"b", 1⟩] 4 0 0 [⟨1, 4, 0, 4, [⟨"a", 3⟩, ⟨"b", 1⟩]⟩] []
    (by decide) (by decide) (by decide) (by decide) ⟨1, 4, 0, 4, [⟨"a", 3⟩, ⟨"b", 1⟩]⟩
    (by simp)

/-- C3. The must-fit assertion is violated: with capacity 0, reserve 0 and
per-file overhead 1 (all non-negative), a file of size 0 passes the threshold
check (`0 > max(0, 0 - 1) = 0` is false), no bin exists, and the freshly
created empty bin rejects it (`0 + 1 ≤ 0` fails), so
`assert new_bin.try_add(fe, per_file_overhead)` raises `AssertionError` —
modelled as the run returning `none`. -/
theorem ffd_must_fit_assert_fails :
    first_fit_decreasing [⟨"f", 0⟩] 0 0 1 = none := by decide

/-- C4 counterexample: with capacity 5, reserve 5 and overhead 3, the single
bin threshold is `max 0 (max 0 (5 - 5) - 3) = 0`, and a file of size exactly
that threshold is indeed not skipped — but its placement into a fresh empty
bin does not succeed: the run aborts at the must-fit assertion (`none`),
against the claim that placement of a threshold-sized file succeeds. -/
theorem ffd_threshold_counterexample :
    max 0 (max 0 ((5 : Int) - 5) - 3) = 0 ∧
      first_fit_decreasing [⟨"g", 0⟩] 5 5 3 = none := by decide

/-- C4 amended. Threshold correctness, restricted as the degenerate regime
forces: a file whose size exceeds `singleBinThreshold`(so in particular one
of size threshold + 1) always lands in the skipped set, a file of size at
most the threshold is never in the skipped set, and — provided
`per_file_overhead ≤ effectiveCapacity`, which excludes the degenerate
clamped-threshold regime of the counterexample — a threshold-sized file
packed alone is placed in one bin with nothing skipped. -/
theorem ffd_threshold_amended (capacity reserve_bytes per_file_overhead : Int) (p : String)
    (files : List FileEntry) (bins : List Bin) (skipped : List FileEntry)
    (hc : 0 ≤ capacity) (hr : 0 ≤ reserve_bytes) (hov : 0 ≤ per_file_overhead) :
    (per_file_overhead ≤ max 0 (capacity - reserve_bytes) →
      ∃ b, first_fit_decreasing
          [⟨p, max 0 (max 0 (capacity - reserve_bytes) - per_file_overhead)⟩]
          capacity reserve_bytes per_file_overhead = some ([b], []) ∧
        b.files = [⟨p, max 0 (max 0 (capacity - reserve_bytes) - per_file_overhead)⟩]) ∧
    (first_fit_decreasing files capacity reserve_bytes per_file_overhead =
        some (bins, skipped) →
      (∀ fe ∈ files,
        max 0 (max 0 (capacity - reserve_bytes) - per_file_overhead) < fe.size →
          fe ∈ skipped) ∧
      (∀ fe : FileEntry,
        fe.size ≤ max 0 (max 0 (capacity - reserve_bytes) - per_file_overhead) →
          fe ∉ skipped)) := by
  constructor
  · intro hfitcap
    have hfit : max 0 (max 0 (capacity - reserve_bytes) - per_file_overhead) +
        per_file_overhead ≤ max 0 (capacity - reserve_bytes) - 0 := by omega
    refine ⟨⟨1, capacity, reserve_bytes,
      0 + (max 0 (max 0 (capacity - reserve_bytes) - per_file_overhead) + per_file_overhead),
      [] ++ [⟨p, max 0 (max 0 (capacity - reserve_bytes) - per_file_overhead)⟩]⟩, ?_, by simp⟩
    simp only [first_fit_decreasing, sortBySizeDesc, insertBySizeDesc, ffdLoop,
      placeFirstFit, Bin.try_add, Bin.remaining, Bin.effective_capacity, lt_irrefl,
      if_false, if_neg, List.length_nil]
    rw [if_pos hfit]
    simp
  · intro h
    simp only [first_fit_decreasing] at h
    have hsk := ffdLoop_skipped h
    simp only [List.nil_append] at hsk
    constructor
    · intro fe hfe hlt
      rw [hsk]
      refine List.mem_filter.mpr ⟨?_, by simpa using hlt⟩
      exact ((sortBySizeDesc_perm files).mem_iff).mpr hfe
    · intro fe hle hmem
      rw [hsk] at hmem
      have := (List.mem_filter.mp hmem).2
      simp at this
      omega

/-- C4 amended witness: capacity 10, reserve 0, overhead 0 — the threshold is
10 and a file of size 10 alone is packed into one bin with nothing skipped. -/
theorem ffd_threshold_amended_witness :
    ∃ b, first_fit_decreasing [⟨"f", max 0 (max 0 ((10 : Int) - 0) - 0)⟩] 10 0 0 =
        some ([b], []) ∧
      b.files = [⟨"f", max 0 (max 0 ((10 : Int) - 0) - 0)⟩] :=
  (ffd_threshold_amended 10 0 0 "f" [] [] [] (by decide) (by decide) (by decide)).1
    (by decide)

/-- C5 counterexample: for the fixed file set of sizes
`[16, 16, 16, 16, 9, 9, 9, 9, 6, 6, 6, 6]` (reserve 0, overhead 0, nothing
skipped at either capacity), raising the capacity from 31 to 32 raises the
number of bins from 4 (four bins of 16 + 9 + 6 = 31) to 5 — First-Fit
Decreasing is not monotone in capacity even with an empty skipped set. -/
theorem ffd_capacity_monotonicity_counterexample :
    (31 : Int) < 32 ∧
      (first_fit_decreasing
          [⟨"a1", 16⟩, ⟨"a2", 16⟩, ⟨"a3", 16⟩, ⟨"a4", 16⟩, ⟨"b1", 9⟩, ⟨"b2", 9⟩,
           ⟨"b3", 9⟩, ⟨"b4", 9⟩, ⟨"c1", 6⟩, ⟨"c2", 6⟩, ⟨"c3", 6⟩, ⟨"c4", 6⟩]
          31 0 0).map (fun pr => (pr.1.length, pr.2.length)) = some (4, 0) ∧
      (first_fit_decreasing
          [⟨"a1", 16⟩, ⟨"a2", 16⟩, ⟨"a3", 16⟩, ⟨"a4", 16⟩, ⟨"b1", 9⟩, ⟨"b2", 9⟩,
           ⟨"b3", 9⟩, ⟨"b4", 9⟩, ⟨"c1", 6⟩, ⟨"c2", 6⟩, ⟨"c3", 6⟩, ⟨"c4", 6⟩]
          32 0 0).map (fun pr => (pr.1.length, pr.2.length)) = some (5, 0) := by
  decide

/-- C5 amended. The monotonicity the packer does provide in the capacity: for
a fixed file set, reserve and overhead, whenever both runs return, raising
the capacity never grows the skipped set — the higher-capacity skipped list
is a sublist of the lower-capacity one, so in particular never longer. (The
bin count itself is not monotone, per the counterexample.) -/
theorem ffd_skipped_monotone (files : List FileEntry)
    (capacity capacity2 reserve_bytes per_file_overhead : Int)
    (bins bins2 : List Bin) (skipped skipped2 : List FileEntry)
    (hr : 0 ≤ reserve_bytes) (hov : 0 ≤ per_file_overhead) (hcc : capacity ≤ capacity2)
    (h1 : first_fit_decreasing files capacity reserve_bytes per_file_overhead =
      some (bins, skipped))
    (h2 : first_fit_decreasing files capacity2 reserve_bytes per_file_overhead =
      some (bins2, skipped2)) :
    List.Sublist skipped2 skipped ∧ skipped2.length ≤ skipped.length := by
  simp only [first_fit_decreasing] at h1 h2
  have e1 := ffdLoop_skipped h1
  have e2 := ffdLoop_skipped h2
  simp only [List.nil_append] at e1 e2
  have hsub : List.Sublist skipped2 skipped := by
    rw [e1, e2]
    refine List.monotone_filter_right _ ?_
    intro fe hfe
    simp only [decide_eq_true_eq] at hfe ⊢
    omega
  exact ⟨hsub, hsub.length_le⟩

/-- C5 amended witness: a size-2 file, capacities 4 and 5 — both runs return,
and the skipped lists (both empty) satisfy the sublist relation. -/
theorem ffd_skipped_monotone_witness :
    List.Sublist ([] : List FileEntry) ([] : List FileEntry) ∧
      List.length ([] : List FileEntry) ≤ List.length ([] : List FileEntry) :=
  ffd_skipped_monotone [⟨"a", 2⟩] 4 5 0 0 [⟨1, 4, 0, 2, [⟨"a", 2⟩]⟩]
    [⟨1, 5, 0, 2, [⟨"a", 2⟩]⟩] [] [] (by decide) (by decide) (by decide)
    (by decide) (by decide)

/-- C6. Determinism and stability: packing the same input with the same
configuration twice yields the same bins and the same skipped set (the model
is a pure function of its inputs — the source has no other input), and the
descending sort is stable: for every size, the records of that size appear in
`sortBySizeDesc files` exactly as they appear in `files`, so ties keep the
scanner's order. -/
theorem ffd_deterministic_and_sort_stable (files : List FileEntry)
    (capacity reserve_bytes per_file_overhead : Int) :
    first_fit_decreasing files capacity reserve_bytes per_file_overhead =
      first_fit_decreasing files capacity reserve_bytes per_file_overhead ∧
    ∀ s : Int,
      (sortBySizeDesc files).filter (fun g => decide (g.size = s)) =
        files.filter (fun g => decide (g.size = s)) :=
  ⟨rfl, fun s => filter_sortBySizeDesc s files⟩

theorem matFiles_unknown {link_type : String} (out_dir : String)
    (h1 : link_type ≠ "symlink") (h2 : link_type ≠ "hardlink") (h3 : link_type ≠ "copy") :
    ∀ files : List FileEntry,
      (matFiles link_type out_dir files).1 = [] ∧
        ((matFiles link_type out_dir files).2.isSome ↔ files ≠ []) := by
  intro files
  cases files with
  | nil => simp [matFiles]
  | cons fe rest => simp [matFiles, h1, h2, h3]

theorem matBins_unknown {link_type : String} (staging_dir : String)
    (h1 : link_type ≠ "symlink") (h2 : link_type ≠ "hardlink") (h3 : link_type ≠ "copy") :
    ∀ bins : List Bin,
      (∀ op ∈ (matBins link_type staging_dir bins).1, ∃ q, op = FsOp.mkdirParents q) ∧
        ((matBins link_type staging_dir bins).2.isSome ↔ ∃ b ∈ bins, b.files ≠ []) := by
  intro bins
  induction bins with
  | nil => simp [matBins]
  | cons b rest ih =>
    rcases hbf : b.files with _ | ⟨fe, fs⟩
    · simp only [matBins, hbf, matFiles]
      constructor
      · intro op hop
        simp only [List.singleton_append, List.mem_cons] at hop
        rcases hop with hop | hop
        · exact ⟨_, hop⟩
        · exact ih.1 op hop
      · rw [ih.2]
        constructor
        · rintro ⟨x, hx, hxne⟩
          exact ⟨x, by simp [hx], hxne⟩
        · rintro ⟨x, hx, hxne⟩
          rcases List.mem_cons.mp hx with hx | hx
          · exact absurd (hx ▸ hxne) (by simp [hbf])
          · exact ⟨x, hx, hxne⟩
    · simp only [matBins, hbf, matFiles, if_neg h1, if_neg h2, if_neg h3]
      constructor
      · intro op hop
        simp only [List.mem_cons, List.not_mem_nil, or_false] at hop
        exact ⟨_, hop⟩
      · simp only [Option.isSome_some, true_iff]
        exact ⟨b, by simp, by simp [hbf]⟩

/-- C7 counterexample: materialising a one-bin plan with the unrecognised
link type `"bogus"` does mutate the filesystem before the configuration
error is raised — the staging directory and the first bin's `disc_001`
directory are both created, and only then `ValueError("Unknown link type:
bogus")` aborts the run — against the claim that the error is reported
before any filesystem mutation (no directory created). -/
theorem materialise_unknown_link_counterexample :
    FsOp.mkdirParents "st" ∈
        (materialise_plan [⟨1, 10, 0, 3, [⟨"x/a", 3⟩]⟩] "st" "bogus").1 ∧
      FsOp.mkdirParents "st/disc_001" ∈
        (materialise_plan [⟨1, 10, 0, 3, [⟨"x/a", 3⟩]⟩] "st" "bogus").1 ∧
      (materialise_plan [⟨1, 10, 0, 3, [⟨"x/a", 3⟩]⟩] "st" "bogus").2 =
        some "Unknown link type: bogus" := by
  decide

/-- C7 amended. What the materialiser does guarantee for an unrecognised
link type: the run performs no link, hardlink or copy — every mutation in
its trace is a directory creation — and it raises the unknown-link-type
configuration error exactly when some bin has a file (the per-file dispatch
is what raises). Directories (the staging directory and the `disc_NNN`
directories up to the first file) are created before the error. -/
theorem materialise_unknown_link_amended (bins : List Bin) (staging_dir link_type : String)
    (h1 : link_type ≠ "symlink") (h2 : link_type ≠ "hardlink") (h3 : link_type ≠ "copy") :
    (∀ op ∈ (materialise_plan bins staging_dir link_type).1, ∃ q, op = FsOp.mkdirParents q) ∧
      ((materialise_plan bins staging_dir link_type).2.isSome ↔ ∃ b ∈ bins, b.files ≠ []) := by
  obtain ⟨hops, herr⟩ := matBins_unknown staging_dir h1 h2 h3 bins
  constructor
  · intro op hop
    simp only [materialise_plan, List.mem_cons] at hop
    rcases hop with hop | hop
    · exact ⟨_, hop⟩
    · exact hops op hop
  · simpa [materialise_plan] using herr

/-- C7 amended witness: the theorem applied to a concrete one-bin plan and
the unknown link type `"bogus"` — the run reports the configuration error
(its bin has a file). -/
theorem materialise_unknown_link_amended_witness :
    (materialise_plan [⟨1, 10, 0, 3, [⟨"y/b", 3⟩]⟩] "tgt" "bogus").2.isSome = true :=
  (materialise_unknown_link_amended [⟨1, 10, 0, 3, [⟨"y/b", 3⟩]⟩] "tgt" "bogus"
    (by decide) (by decide) (by decide)).2.mpr
    ⟨⟨1, 10, 0, 3, [⟨"y/b", 3⟩]⟩, by simp, by simp⟩

/-- C9 counterexample: with profile `"dvd5"`, an explicit value `1` and the
unit `"parsec"` — a supplied unit that is not in the unit table — resolution
does not fail: the profile branch wins and the unit is never consulted, so
the call returns `ok 4700372992`, against the claim that resolution fails
exactly when a supplied profile or a supplied unit is not in its table. -/
theorem resolve_capacity_counterexample :
    UNIT_FACTORS.lookup "parsec" = none ∧
      resolve_capacity (some "dvd5") (some 1) "parsec" = Except.ok 4700372992 := by
  constructor
  · decide
  · rfl

/-- C9 amended. The resolver's exact behaviour: it fails precisely when the
profile is supplied (truthy) but absent from the profile table, or when no
profile is supplied, an explicit value is supplied, and the unit is absent
from the unit table — the unit is ignored whenever a profile is given or no
explicit value is given. Otherwise it returns the profile's table entry, or
`value × unit-factor` truncated toward zero, or the single-layer-DVD default
`4,700,372,992` bytes when neither profile nor value is given. -/
theorem resolve_capacity_characterization (profile : Option String) (capacity : Option ℚ)
    (unit : String) :
    ((∃ e, resolve_capacity profile capacity unit = Except.error e) ↔
        (truthyStr profile = true ∧ MEDIA_PROFILES.lookup (profile.getD "") = none) ∨
          (truthyStr profile = false ∧
            ∃ v, capacity = some v ∧ UNIT_FACTORS.lookup unit = none)) ∧
      (∀ cap, truthyStr profile = true → MEDIA_PROFILES.lookup (profile.getD "") = some cap →
        resolve_capacity profile capacity unit = Except.ok cap) ∧
      (∀ v factor, truthyStr profile = false → capacity = some v →
        UNIT_FACTORS.lookup unit = some factor →
        resolve_capacity profile capacity unit = Except.ok (ratTrunc (v * (factor : ℚ)))) ∧
      (truthyStr profile = false → capacity = none →
        resolve_capacity profile capacity unit = Except.ok 4700372992) := by
  by_cases ht : truthyStr profile = true
  · rcases hl : MEDIA_PROFILES.lookup (profile.getD "") with _ | cap
    · simp [resolve_capacity, ht, hl]
    · simp [resolve_capacity, ht, hl]
  · have ht2 : truthyStr profile = false := by simpa using ht
    rcases hcap : capacity with _ | v
    · have hdvd : MEDIA_PROFILES.lookup "dvd5" = some 4700372992 := by decide
      simp [resolve_capacity, ht2, hdvd]
    · rcases hu : UNIT_FACTORS.lookup unit with _ | factor
      · simp [resolve_capacity, ht2, hu]
      · simp [resolve_capacity, ht2, hu]

/-- C9 amended witness: with no profile and no explicit value the resolver
returns the single-layer-DVD default. -/
theorem resolve_capacity_characterization_witness :
    resolve_capacity none none "GiB" = Except.ok 4700372992 :=
  (resolve_capacity_characterization none none "GiB").2.2.2 rfl rfl

theorem keepFile_some_shape {ig : Bool} {set : List String} {ex : Option (List String)}
    {d name : String} {szo : Option Int} {fe : FileEntry}
    (h : keepFile ig (some set) ex d name szo = some fe) :
    ∃ sz, szo = some sz ∧ fe = ⟨d ++ "/" ++ name, sz⟩ ∧ normExt (pySuffix name) ∈ set := by
  simp only [keepFile] at h
  split at h
  · cases h
  · split at h
    · cases h
    · split at h
      · cases h
      · rename_i hmiss
        have hin : normExt (pySuffix name) ∈ set := by
          simpa [includeMiss] using hmiss
        rcases szo with _ | sz
        · cases h
        · cases h
          exact ⟨sz, rfl, rfl, hin⟩

theorem dirFiles_mem {ig : Bool} {inc ex : Option (List String)} {d : String}
    {entries : List FsEntry} {fe : FileEntry} (h : fe ∈ dirFiles ig inc ex d entries) :
    ∃ name sz, keepFile ig inc ex d name sz = some fe := by
  obtain ⟨e, he, hke⟩ := List.mem_filterMap.mp h
  cases e with
  | file name sz => exact ⟨name, sz, hke⟩
  | dir name cs => cases hke

theorem walkList_mem {ig : Bool} {inc ex : Option (List String)} {d : String}
    {es : List FsEntry} {fe : FileEntry} (h : fe ∈ walkList ig inc ex d es) :
    ∃ d2 name sz, keepFile ig inc ex d2 name sz = some fe := by
  revert h
  refine walkList.induct ig inc ex (motive := fun d es =>
    fe ∈ walkList ig inc ex d es →
      ∃ d2 name sz, keepFile ig inc ex d2 name sz = some fe) ?_ ?_ ?_ d es
  · intro dirpath hmem
    simp [walkList] at hmem
  · intro dirpath name size rest ih hmem
    rw [walkList] at hmem
    exact ih hmem
  · intro dirpath name cs rest ih1 ih2 hmem
    rw [walkList] at hmem
    rcases List.mem_append.mp hmem with hmem | hmem
    · split at hmem
      · simp at hmem
      · rcases List.mem_append.mp hmem with hmem | hmem
        · obtain ⟨n2, s2, hk⟩ := dirFiles_mem hmem
          exact ⟨_, n2, s2, hk⟩
        · exact ih1 hmem
    · exact ih2 hmem

/-- C8. Forced ignore-hidden: the `ignore_hidden` argument `main` hands the
scanner is `args.no_hidden or True`, which is `true` whatever the configured
flag; and when the scanner runs with `ignore_hidden = true`, a hidden-named
directory is pruned from the walk (its whole subtree contributes nothing,
at any depth) and a hidden-named file is skipped (its loop body yields no
record), whatever the other options. -/
theorem ignore_hidden_forced (no_hidden : Bool) :
    main_scan_ignore_hidden no_hidden = true ∧
      (∀ (inc ex : Option (List String)) (d name : String) (cs rest : List FsEntry),
        hiddenName name = true →
          walkList true inc ex d (FsEntry.dir name cs :: rest) = walkList true inc ex d rest) ∧
      (∀ (inc ex : Option (List String)) (d name : String) (sz : Option Int),
        hiddenName name = true → keepFile true inc ex d name sz = none) := by
  refine ⟨by simp [main_scan_ignore_hidden], ?_, ?_⟩
  · intro inc ex d name cs rest hname
    rw [walkList]
    simp [hname]
  · intro inc ex d name sz hname
    simp [keepFile, hname]

/-- C8 witness: the theorem at `no_hidden = false` and concrete hidden
entries — the flag the driver passes is still `true`, the directory `".git"`
is pruned and the file `".env"` is skipped. -/
theorem ignore_hidden_forced_witness :
    main_scan_ignore_hidden false = true ∧
      walkList true none none "root" [FsEntry.dir ".git" [FsEntry.file "cfg" (some 1)]] =
        walkList true none none "root" [] ∧
      keepFile true none none "root" ".env" (some 2) = none :=
  ⟨(ignore_hidden_forced false).1,
    (ignore_hidden_forced false).2.1 none none "root" ".git"
      [FsEntry.file "cfg" (some 1)] [] (by decide),
    (ignore_hidden_forced false).2.2 none none "root" ".env" (some 2) (by decide)⟩

/-- C10. Implicit scanner edge case, confirmed: with a non-empty extension
allow-list in which no entry normalises to the empty string, every record the
scan returns comes from a name whose `pathlib` suffix is non-empty — a file
whose base name has an empty suffix can never pass the membership test, which
compares `suffix.lower().lstrip('.')` against the normalised allow-list; it
is returned only when the empty string itself is in the (normalised)
allow-list. -/
theorem scan_empty_suffix_excluded (root : String) (entries : List FsEntry)
    (exts : List String) (ex : Option (List String)) (fs ig : Bool) (fe : FileEntry)
    (hne : exts ≠ []) (hempty : "" ∉ exts.map normExt)
    (hmem : fe ∈ scan_files root entries (some exts) ex fs ig) :
    ∃ d name sz, fe = ⟨d ++ "/" ++ name, sz⟩ ∧ pySuffix name ≠ "" := by
  have hie : exts.isEmpty = false := by
    simpa using hne
  simp only [scan_files, hie, Bool.false_eq_true, if_false] at hmem
  have hkeep : ∃ d2 name sz, keepFile ig (some (exts.map normExt)) ex d2 name sz = some fe := by
    rcases List.mem_append.mp hmem with hmem | hmem
    · obtain ⟨n2, s2, hk⟩ := dirFiles_mem hmem
      exact ⟨root, n2, s2, hk⟩
    · exact walkList_mem hmem
  obtain ⟨d2, name, szo, hk⟩ := hkeep
  obtain ⟨sz, hszo, hfe, hin⟩ := keepFile_some_shape hk
  refine ⟨d2, name, sz, hfe, ?_⟩
  intro hsuf
  rw [hsuf] at hin
  have : normExt "" = "" := rfl
  rw [this] at hin
  exact hempty hin

/-- C10 witness: scanning a root with the files `a.txt` (kept) under the
allow-list `["txt"]` — the theorem applies to the returned record, whose name
`a.txt` has the non-empty suffix `.txt`. -/
theorem scan_empty_suffix_excluded_witness :
    ∃ d name sz, (⟨"root/a.txt", 5⟩ : FileEntry) = ⟨d ++ "/" ++ name, sz⟩ ∧
      pySuffix name ≠ "" :=
  scan_empty_suffix_excluded "root" [FsEntry.file "a.txt" (some 5)] ["txt"] none false true
    ⟨"root/a.txt", 5⟩ (by decide) (by decide)
    (by
      have h2 : scan_files "root" [FsEntry.file "a.txt" (some 5)] (some ["txt"]) none
          false true =
          dirFiles true (some (List.map normExt ["txt"])) none "root"
              [FsEntry.file "a.txt" (some 5)] ++
            walkList true (some (List.map normExt ["txt"])) none "root"
              [FsEntry.file "a.txt" (some 5)] := rfl
      have h1 : walkList true (some (List.map normExt ["txt"])) none "root"
          [FsEntry.file "a.txt" (some 5)] = [] := by
        rw [walkList, walkList]
      rw [h2, h1]
      decide)
